import Mathlib

/-!
Shallow embedding of the conflict-aware transaction scheduler and its
event-log consistency checker (Python sources: `model/workload.py`,
`model/bloom_filter.py`, `model/scheduler.py`, `runner/analyze.py`),
together with theorems settling the specification claims about them.

Python `frozenset[int]` becomes `Finset ℕ`, `bitarray` becomes `List Bool`,
Python `assert` failures and uncaught exceptions become `none` / explicit
error values, and `sys.exit(msg)` becomes an `Except`-style error carrying
the message.
-/

namespace Workload

/-- Exact-set transaction (`model/workload.py`, class `Transaction`):
an immutable triple of an id set, a read set and a write set. -/
structure Transaction where
  ids : Finset ℕ
  read_set : Finset ℕ
  write_set : Finset ℕ
deriving DecidableEq

/-- `Transaction.compat` (`workload.py` lines 18-23): the union of the three
conflict intersections is computed and the result is `not bool(conflicts)`. -/
def Transaction.compat (ts1 ts2 : Transaction) : Bool :=
  let r1w2_set := ts1.read_set ∩ ts2.write_set
  let w1r2_set := ts1.write_set ∩ ts2.read_set
  let w1w2_set := ts1.write_set ∩ ts2.write_set
  let conflicts := r1w2_set ∪ w1r2_set ∪ w1w2_set
  decide (conflicts = ∅)

/-- The record built by `Transaction.merge` once its assertion has passed:
the three fields are the pairwise unions. -/
def Transaction.mergeU (ts1 ts2 : Transaction) : Transaction :=
  { ids := ts1.ids ∪ ts2.ids
    read_set := ts1.read_set ∪ ts2.read_set
    write_set := ts1.write_set ∪ ts2.write_set }

/-- `Transaction.merge` (`workload.py` lines 25-31): asserts compatibility
("Can only merge compatible transactions") and returns the field-wise union.
The assertion failure is modelled as `none`. -/
def Transaction.merge (ts1 ts2 : Transaction) : Option Transaction :=
  if ts1.compat ts2 then some (ts1.mergeU ts2) else none

end Workload

namespace Bloom

/-- `BloomFilter` (`model/bloom_filter.py`): a bit array together with a list
of hash functions. -/
structure BloomFilter where
  bits : List Bool
  hash_fns : List (ℕ → ℕ)

/-- `BloomFilter.add`: set bit `fn(elem)` for every hash function. (The
Python `bitarray` write is in range because every family hash function
reduces modulo the number of buckets.) -/
def BloomFilter.add (f : BloomFilter) (elem : ℕ) : BloomFilter :=
  { f with bits := f.hash_fns.foldl (fun bs fn => bs.set (fn elem) true) f.bits }

/-- `BloomFilter.__contains__`: all hashed bits are set. -/
def BloomFilter.contains (f : BloomFilter) (elem : ℕ) : Bool :=
  f.hash_fns.all (fun fn => f.bits.getD (fn elem) false)

/-- `BloomFilter.__and__`: element-wise AND of the bit arrays, keeping the
(identical, by the source assertions) hash family of the left operand. -/
def BloomFilter.inter (f other : BloomFilter) : BloomFilter :=
  { bits := List.zipWith and f.bits other.bits, hash_fns := f.hash_fns }

/-- `BloomFilter.__or__`: element-wise OR of the bit arrays. -/
def BloomFilter.union (f other : BloomFilter) : BloomFilter :=
  { bits := List.zipWith or f.bits other.bits, hash_fns := f.hash_fns }

/-- `BloomFilter.__bool__`: true iff any bit is set. -/
def BloomFilter.toBool (f : BloomFilter) : Bool :=
  f.bits.any id

/-- `ParallelBloomFilter`: a list of component Bloom filters. -/
structure ParallelBloomFilter where
  parts : List BloomFilter

/-- `ParallelBloomFilter.add`: broadcast the insertion to every part. -/
def ParallelBloomFilter.add (p : ParallelBloomFilter) (elem : ℕ) : ParallelBloomFilter :=
  { parts := p.parts.map (fun part => part.add elem) }

/-- `ParallelBloomFilter.__contains__`: conjunction over the parts. -/
def ParallelBloomFilter.contains (p : ParallelBloomFilter) (elem : ℕ) : Bool :=
  p.parts.all (fun part => part.contains elem)

/-- `ParallelBloomFilter.__and__`: pair the parts by index. -/
def ParallelBloomFilter.inter (p other : ParallelBloomFilter) : ParallelBloomFilter :=
  { parts := List.zipWith BloomFilter.inter p.parts other.parts }

/-- `ParallelBloomFilter.__or__`: pair the parts by index. -/
def ParallelBloomFilter.union (p other : ParallelBloomFilter) : ParallelBloomFilter :=
  { parts := List.zipWith BloomFilter.union p.parts other.parts }

/-- `ParallelBloomFilter.__bool__` (`bloom_filter.py` lines 105-106):
`all(bool(part) for part in self.parts)`. -/
def ParallelBloomFilter.toBool (p : ParallelBloomFilter) : Bool :=
  p.parts.all (fun part => part.toBool)

/-- A parallel Bloom-filter family as produced by
`make_parallel_bloom_filter_family(len_signature, num_partitions)`: one
`(bucket count, hash function)` descriptor per part, each part a fresh
single-hash filter over that many zero bits. -/
def freshParallel (fam : List (ℕ × (ℕ → ℕ))) : ParallelBloomFilter :=
  { parts := fam.map (fun p => { bits := List.replicate p.1 false, hash_fns := [p.2] }) }

/-- The loop `for obj in s: filter.add(obj)` over a list of elements. -/
def BloomFilter.addElems (f : BloomFilter) (xs : List ℕ) : BloomFilter :=
  xs.foldl BloomFilter.add f

/-- The loop `for obj in s: filter.add(obj)` at the parallel level. -/
def ParallelBloomFilter.addElems (p : ParallelBloomFilter) (xs : List ℕ) : ParallelBloomFilter :=
  xs.foldl ParallelBloomFilter.add p

/-- Signature-compressed transaction: same id set, but the read and write
sets are parallel Bloom filters (in Python the one `Transaction` class is
used polymorphically over its `Set` fields). -/
structure SigTransaction where
  ids : Finset ℕ
  read_set : ParallelBloomFilter
  write_set : ParallelBloomFilter

/-- `Transaction.compat` instantiated at signature sets: the very same
source lines 18-23, with `&`, `|` and `bool` dispatching to the
`ParallelBloomFilter` operations. -/
def SigTransaction.compat (ts1 ts2 : SigTransaction) : Bool :=
  let r1w2_set := ts1.read_set.inter ts2.write_set
  let w1r2_set := ts1.write_set.inter ts2.read_set
  let w1w2_set := ts1.write_set.inter ts2.write_set
  let conflicts := (r1w2_set.union w1r2_set).union w1w2_set
  !conflicts.toBool

/-- `compress_transaction` (`workload.py` lines 50-61): build a fresh family
filter per set and add every member.  Iteration order over a Python
`frozenset` is unspecified; we enumerate in increasing order (the bits that
end up set do not depend on the order). -/
def compressTransaction (t : Workload.Transaction) (fam : List (ℕ × (ℕ → ℕ))) :
    SigTransaction :=
  { ids := t.ids
    read_set := (freshParallel fam).addElems (t.read_set.sort (· ≤ ·))
    write_set := (freshParallel fam).addElems (t.write_set.sort (· ≤ ·)) }

end Bloom

namespace Sched

open Workload

/-- One level of the tournament (`scheduler.py` lines 29-31): pair adjacent
transactions, promote the merge when compatible and the left sibling
otherwise.  (`itertools.batched(txns, 2)` is only unpacked on even-length
lists; the singleton case below is unreachable from `tournLoop`, which
checks evenness first.) -/
def tournRound : List Transaction → List Transaction
  | ts1 :: ts2 :: rest =>
      (if ts1.compat ts2 then ts1.mergeU ts2 else ts1) :: tournRound rest
  | l => l

theorem tournRound_length (ts : List Transaction) :
    (tournRound ts).length = (ts.length + 1) / 2 := by
  match ts with
  | [] => simp [tournRound]
  | [t] => simp [tournRound]
  | t1 :: t2 :: rest =>
    simp only [tournRound, List.length_cons]
    rw [tournRound_length rest]
    omega

/-- The `while len(txns) > 1` loop of `TournamentScheduler.schedule`
(`scheduler.py` lines 25-33): asserts the current level has even length,
reduces it with `tournRound`, and finally yields the sole survivor.
An assertion failure on an odd level, and the `txns[0]` index error on an
empty input, are modelled as `none`. -/
def tournLoop : List Transaction → Option Transaction
  | [] => none
  | [t] => some t
  | t1 :: t2 :: rest =>
      if (t1 :: t2 :: rest).length % 2 = 0
      then tournLoop (tournRound (t1 :: t2 :: rest))
      else none
termination_by ts => ts.length
decreasing_by
  simp only [tournRound_length, List.length_cons]
  omega

namespace TournamentScheduler

/-- The final list comprehension `[all_txns[id] for id in txns[0].ids]`:
Python list indexing raises `IndexError` on an out-of-range id, modelled
as `none`. -/
def indexByIds (all_txns : List Transaction) : List ℕ → Option (List Transaction)
  | [] => some []
  | id :: rest =>
      match all_txns[id]? with
      | none => none
      | some t => (indexByIds all_txns rest).map (fun ts => t :: ts)

/-- `TournamentScheduler.schedule`: run the reduction and return the
original transactions indexed by the survivor's ids, an out-of-range id
being an `IndexError` (`none`).  Python iterates the id `frozenset` in
unspecified order; we enumerate the ids in increasing order. -/
def schedule (all_txns : List Transaction) : Option (List Transaction) :=
  (tournLoop all_txns).bind (fun survivor =>
    indexByIds all_txns (survivor.ids.sort (· ≤ ·)))

end TournamentScheduler

namespace GreedyScheduler

/-- The `for txn in txns[1:]` loop of `GreedyScheduler.schedule`
(`scheduler.py` lines 14-21), carrying `main_txn` and `sched_txns`.  The
`merge` call is gated behind `compat`, so its assertion always passes and
we use the unchecked merge. -/
def go (main_txn : Transaction) (sched_txns : List Transaction) :
    List Transaction → List Transaction
  | [] => sched_txns
  | txn :: rest =>
      if main_txn.compat txn
      then go (main_txn.mergeU txn) (sched_txns ++ [txn]) rest
      else go main_txn sched_txns rest

/-- `GreedyScheduler.schedule`: start from `txns[0]` (an index error on an
empty input, modelled as `none`) and fold the loop over the tail. -/
def schedule (txns : List Transaction) : Option (List Transaction) :=
  match txns with
  | [] => none
  | t :: rest => some (go t [t] rest)

end GreedyScheduler

/-- Modelled from the spec's words (§4.4), for comparison with
`GreedyScheduler.schedule`: start with `acc := T0`, `chosen := [T0]`, and
for each later transaction append it to `chosen` and merge it into `acc`
exactly when it is compatible with `acc`. -/
def greedySpec (txns : List Transaction) : List Transaction :=
  match txns with
  | [] => []
  | t :: rest =>
      (rest.foldl
        (fun s txn => if s.1.compat txn then (s.1.mergeU txn, s.2 ++ [txn]) else s)
        (t, [t])).2

end Sched

namespace Analyze

/-- `Transaction` namedtuple of `runner/analyze.py`: exact read and write
lists parsed from the transactions CSV. -/
structure Txn where
  reads : List ℤ
  writes : List ℤ
deriving DecidableEq

/-- Event kinds recognised by `parse_log`. -/
inductive EventKind
  | submit
  | scheduled
  | done
deriving DecidableEq

/-- `LogEntry` of `analyze.py`.  `time` only feeds the printed metrics and
never any control flow, so it is carried inertly as a rational.
`puppet_id` is `None` in Python for `submit` entries; here it is `0` and
unused on that path. -/
structure LogEntry where
  kind : EventKind
  time : ℚ
  txn_id : ℕ
  puppet_id : ℕ
deriving DecidableEq

/-- `conflict(txnA, txnB)` (`analyze.py` lines 78-85): some write of `A`
occurs among `B`'s reads or writes, or some read of `A` among `B`'s
writes. -/
def conflict (txnA txnB : Txn) : Bool :=
  txnA.writes.any (fun w => txnB.reads.contains w || txnB.writes.contains w) ||
    txnA.reads.any (fun r => txnB.writes.contains r)

/-- Python strings are modelled as explicit character lists (`PyStr`) so
that the parsing functions stay kernel-computable; a `str` value of the
source corresponds to the list of its characters. -/
def PyStr := List Char
deriving DecidableEq

/-- Python's `str.strip()`: drop whitespace from both ends. -/
def pyStrip (s : PyStr) : PyStr :=
  ((s.dropWhile Char.isWhitespace).reverse.dropWhile Char.isWhitespace).reverse

/-- Python's `str.split(sep)` for a one-character separator: the empty
string yields `[""]`, and each separator occurrence opens a new field. -/
def pySplit (sep : Char) : PyStr → List PyStr
  | [] => [[]]
  | c :: rest =>
      match pySplit sep rest with
      | [] => [[c]]
      | g :: gs => if c = sep then [] :: g :: gs else (c :: g) :: gs

/-- Decimal-digit run to a number; `none` unless the string is a non-empty
run of digits. -/
def digitsToNat (ds : PyStr) : Option ℕ :=
  if ds = [] then none
  else if ds.all Char.isDigit then
    some (ds.foldl (fun n c => 10 * n + (c.toNat - 48)) 0)
  else none

/-- Python's `int(str)` conversion: surrounding whitespace is stripped, an
optional sign precedes a non-empty digit run, anything else raises
`ValueError` (`none`).  (Python also accepts underscore separators, which
never occur in this pipeline and are not modelled.) -/
def pyInt (s : PyStr) : Option ℤ :=
  match pyStrip s with
  | '+' :: rest => (digitsToNat rest).map (fun n => (n : ℤ))
  | '-' :: rest => (digitsToNat rest).map (fun n => -(n : ℤ))
  | t => (digitsToNat t).map (fun n => (n : ℤ))

/-- Errors of the analyzer: `exit` is a `sys.exit(msg)` with its one-line
diagnostic; `valueError` an uncaught `ValueError` from `int()`;
`keyError i` an uncaught `KeyError` from a dictionary lookup of key `i`. -/
inductive AError
  | exit (msg : String)
  | valueError
  | keyError (i : ℕ)
deriving DecidableEq

/-- The `for i in range(0, len(objs), 2)` loop of `parse_transactions_csv`
(lines 40-46): split the post-aux fields into object/write-flag pairs and
route each object id into the read or write list.  Called on even-length
lists only (the parity is checked first); `none` is an uncaught
`ValueError` from `int()`. -/
def parseObjPairs : List PyStr → Option (List ℤ × List ℤ)
  | [] => some ([], [])
  | [_] => none
  | obj :: w :: rest =>
      match pyInt obj, pyInt w with
      | some objid, some writeflag =>
          (parseObjPairs rest).map (fun rw =>
            if writeflag ≠ 0 then (rw.1, objid :: rw.2) else (objid :: rw.1, rw.2))
      | _, _ => none

/-- One non-empty (already stripped) CSV line at 1-based physical line
number `lineno` (`parse_transactions_csv` lines 29-46): the first
comma-field is the `aux_data` integer (a parse failure there exits with a
diagnostic), the rest must pair up evenly into `(objid, writeflag)`. -/
def parseCsvLine (lineno : ℕ) (line : PyStr) : Except AError Txn :=
  let parts := pySplit ',' line
  match pyInt (parts.headD []) with
  | none => .error (.exit ("Error parsing aux_data at line " ++ toString lineno))
  | some _aux =>
      let objs := parts.tail
      if objs.length % 2 ≠ 0 then
        .error (.exit ("Error: line " ++ toString lineno ++
          " has incomplete objid/writeflag pairs"))
      else
        match parseObjPairs objs with
        | none => .error .valueError
        | some rw => .ok { reads := rw.1, writes := rw.2 }

/-- The enumeration loop of `parse_transactions_csv` (lines 25-48):
`lineno` counts every physical line starting from 1, stripped-empty lines
are skipped, and a parsed transaction is stored under key `lineno - 1`. -/
def parseCsvFrom (lineno : ℕ) : List PyStr → Except AError (List (ℕ × Txn))
  | [] => .ok []
  | l :: ls =>
      let line := pyStrip l
      if line = [] then parseCsvFrom (lineno + 1) ls
      else
        match parseCsvLine lineno line with
        | .error e => .error e
        | .ok t =>
            match parseCsvFrom (lineno + 1) ls with
            | .error e => .error e
            | .ok rest => .ok ((lineno - 1, t) :: rest)

/-- `parse_transactions_csv(fileobj)`: the line enumeration starts at 1;
the resulting `txn_map` dictionary is modelled as an association list in
insertion order. -/
def parseTransactionsCsv (lines : List PyStr) : Except AError (List (ℕ × Txn)) :=
  parseCsvFrom 1 lines

/-- Mutable state of `check_consistency` (lines 90-103).  The metric
accumulators (`submit_times`, `schedule_times`, `done_times`,
`puppet_busy_time`, first/last times) only feed the printed summary and are
omitted.  The `active_txns` dictionary is an association list in insertion
order. -/
structure CheckState where
  submitted : Finset ℕ
  scheduled : Finset ℕ
  done : Finset ℕ
  active_txns : List (ℕ × Txn × ℕ)
deriving DecidableEq

/-- The initial (all-empty) checker state. -/
def initState : CheckState :=
  { submitted := ∅, scheduled := ∅, done := ∅, active_txns := [] }

/-- One iteration of the `for e in events` loop of `check_consistency`
(lines 105-150), for event `e` in state `s` against the parsed `txn_map`
and `num_puppets`. -/
def step (num_puppets : ℕ) (txn_map : List (ℕ × Txn)) (s : CheckState)
    (e : LogEntry) : Except AError CheckState :=
  match e.kind with
  | .submit =>
      if e.txn_id ∈ s.submitted then
        .error (.exit ("Error: Transaction " ++ toString e.txn_id ++
          " submitted more than once"))
      else
        .ok { s with submitted := insert e.txn_id s.submitted }
  | .scheduled =>
      if e.txn_id ∉ s.submitted then
        .error (.exit ("Error: Transaction " ++ toString e.txn_id ++
          " scheduled without being submitted first"))
      else if e.txn_id ∈ s.scheduled then
        .error (.exit ("Error: Transaction " ++ toString e.txn_id ++
          " scheduled more than once"))
      else if num_puppets ≤ e.puppet_id then
        .error (.exit ("Error: Puppet ID " ++ toString e.puppet_id ++
          " out of valid range at txn " ++ toString e.txn_id))
      else
        match txn_map.lookup e.txn_id with
        | none => .error (.keyError e.txn_id)
        | some new_txn =>
            if s.active_txns.any (fun a => conflict new_txn a.2.1) then
              .error (.exit ("Error: Conflict detected when scheduling txn " ++
                toString e.txn_id))
            else
              .ok { s with
                active_txns := s.active_txns ++ [(e.txn_id, new_txn, e.puppet_id)]
                scheduled := insert e.txn_id s.scheduled }
  | .done =>
      if e.txn_id ∉ s.scheduled then
        .error (.exit ("Error: Transaction " ++ toString e.txn_id ++
          " completed without being scheduled first"))
      else if e.txn_id ∈ s.done then
        .error (.exit ("Error: Transaction " ++ toString e.txn_id ++
          " completed more than once"))
      else
        match s.active_txns.lookup e.txn_id with
        | none => .error (.exit ("Error: Transaction " ++ toString e.txn_id ++
            " done but not in active set"))
        | some (_txn, puppet_id_sched) =>
            if puppet_id_sched ≠ e.puppet_id then
              .error (.exit ("Error: Puppet ID mismatch on done for txn " ++
                toString e.txn_id))
            else
              .ok { s with
                done := insert e.txn_id s.done
                active_txns := s.active_txns.filter (fun a => a.1 ≠ e.txn_id) }

/-- The whole `for e in events` loop from state `s`. -/
def runEvents (num_puppets : ℕ) (txn_map : List (ℕ × Txn)) (s : CheckState) :
    List LogEntry → Except AError CheckState
  | [] => .ok s
  | e :: es =>
      match step num_puppets txn_map s e with
      | .error err => .error err
      | .ok s' => runEvents num_puppets txn_map s' es

/-- `check_consistency` (lines 89-160): run the event loop, then the two
terminal sweeps (every submitted id scheduled, every scheduled id done).
Python iterates the sets in unspecified order and exits on the first
violation; we report the least offending id. -/
def checkConsistency (num_puppets : ℕ) (txn_map : List (ℕ × Txn))
    (events : List LogEntry) : Except AError CheckState :=
  match runEvents num_puppets txn_map initState events with
  | .error err => .error err
  | .ok s =>
      if h1 : (s.submitted \ s.scheduled).Nonempty then
        .error (.exit ("Error: Transaction " ++
          toString ((s.submitted \ s.scheduled).min' h1) ++
          " submitted but never scheduled"))
      else if h2 : (s.scheduled \ s.done).Nonempty then
        .error (.exit ("Error: Transaction " ++
          toString ((s.scheduled \ s.done).min' h2) ++
          " scheduled but never completed"))
      else
        .ok s

end Analyze

section Helpers

theorem zipWith_or_self (l : List Bool) : List.zipWith or l l = l := by
  rw [List.zipWith_same]
  induction l with
  | nil => rfl
  | cons b bs ih => simp [ih]

theorem zipWith_and_self (l : List Bool) : List.zipWith and l l = l := by
  rw [List.zipWith_same]
  induction l with
  | nil => rfl
  | cons b bs ih => simp [ih]

end Helpers

/-- C8: `merge(A, B)` fails hard (the assertion "Can only merge compatible
transactions") exactly when `compatible(A, B)` is false, and otherwise
returns the transaction whose `ids`, `read_set` and `write_set` are the
pairwise unions of the operands' fields. -/
theorem merge_gated_by_compat (A B : Workload.Transaction) :
    (A.compat B = false → A.merge B = none) ∧
    (A.compat B = true → A.merge B =
      some { ids := A.ids ∪ B.ids, read_set := A.read_set ∪ B.read_set,
             write_set := A.write_set ∪ B.write_set }) := by
  constructor <;> intro h <;>
    simp [Workload.Transaction.merge, Workload.Transaction.mergeU, h]

/-- Witness for C8: a write-write conflict on object 5 makes `merge` fail;
two disjoint transactions merge into the field-wise unions. -/
theorem merge_gated_by_compat_witness :
    (Workload.Transaction.merge ⟨{0}, ∅, {5}⟩ ⟨{1}, {5}, ∅⟩ = none) ∧
    (Workload.Transaction.merge ⟨{0}, {1}, {2}⟩ ⟨{1}, {3}, {4}⟩ =
      some { ids := ({0} : Finset ℕ) ∪ {1}, read_set := ({1} : Finset ℕ) ∪ {3},
             write_set := ({2} : Finset ℕ) ∪ {4} }) :=
  ⟨(merge_gated_by_compat ⟨{0}, ∅, {5}⟩ ⟨{1}, {5}, ∅⟩).1 (by decide),
   (merge_gated_by_compat ⟨{0}, {1}, {2}⟩ ⟨{1}, {3}, {4}⟩).2 (by decide)⟩

/-- C9: union and intersection of signatures are idempotent: for any
signature `A`, `A | A` and `A & A` have bit-for-bit the same bit vector as
`A`; likewise part-wise for any parallel signature. -/
theorem signature_union_inter_idempotent (A : Bloom.BloomFilter) :
    ((A.union A).bits = A.bits ∧ (A.inter A).bits = A.bits) ∧
    ∀ P : Bloom.ParallelBloomFilter,
      (P.union P).parts.map Bloom.BloomFilter.bits = P.parts.map Bloom.BloomFilter.bits ∧
      (P.inter P).parts.map Bloom.BloomFilter.bits = P.parts.map Bloom.BloomFilter.bits := by
  refine ⟨⟨zipWith_or_self A.bits, zipWith_and_self A.bits⟩, fun P => ⟨?_, ?_⟩⟩ <;>
  · simp only [Bloom.ParallelBloomFilter.union, Bloom.ParallelBloomFilter.inter,
      List.zipWith_same, List.map_map]
    apply List.map_congr_left
    intro f _
    simp [Bloom.BloomFilter.union, Bloom.BloomFilter.inter, Function.comp,
      zipWith_or_self, zipWith_and_self]

/-- C3 counterexample: the parallel signature with one all-zero part and one
part holding a set bit is reported empty by `__bool__` (which is
`all(bool(part))`), yet not every part is empty — refuting "is_empty(P)
iff every part is empty". -/
theorem parallel_is_empty_counterexample :
    ((Bloom.ParallelBloomFilter.toBool ⟨[⟨[false], []⟩, ⟨[true], []⟩]⟩) = false) ∧
    ¬ (∀ part ∈ (Bloom.ParallelBloomFilter.mk [⟨[false], []⟩, ⟨[true], []⟩]).parts,
        part.toBool = false) := by
  constructor
  · rfl
  · intro h
    have := h ⟨[true], []⟩ (List.mem_cons.mpr (Or.inr (List.mem_cons.mpr (Or.inl rfl))))
    simp [Bloom.BloomFilter.toBool] at this

/-- C3 amended: `bool(P)` holds iff every part has a set bit, hence
`is_empty(P)` (its negation) holds iff at least one part is empty — the
disjunction, not the conjunction, of part-emptiness. -/
theorem parallel_is_empty_iff (P : Bloom.ParallelBloomFilter) :
    (P.toBool = true ↔ ∀ part ∈ P.parts, true ∈ part.bits) ∧
    ((!P.toBool) = true ↔ ∃ part ∈ P.parts, true ∉ part.bits) := by
  have h : ∀ f : Bloom.BloomFilter, f.toBool = true ↔ true ∈ f.bits := by
    intro f
    simp only [Bloom.BloomFilter.toBool, List.any_eq_true, id]
    constructor
    · rintro ⟨b, hb, rfl⟩; exact hb
    · intro hb; exact ⟨true, hb, rfl⟩
  constructor
  · simp only [Bloom.ParallelBloomFilter.toBool, List.all_eq_true]
    exact ⟨fun H part hp => (h part).mp (H part hp), fun H part hp => (h part).mpr (H part hp)⟩
  · simp only [Bool.not_eq_true', Bloom.ParallelBloomFilter.toBool, List.all_eq_false]
    constructor
    · rintro ⟨part, hp, hfalse⟩
      exact ⟨part, hp, fun ht => by simp [(h part).mpr ht] at hfalse⟩
    · rintro ⟨part, hp, ht⟩
      refine ⟨part, hp, ?_⟩
      cases hf : part.toBool
      · simp
      · exact absurd ((h part).mp hf) ht

namespace Sched

theorem greedy_go_acc (rest : List Workload.Transaction) :
    ∀ main sched, GreedyScheduler.go main sched rest =
      sched ++ GreedyScheduler.go main [] rest := by
  induction rest with
  | nil => intro main sched; simp [GreedyScheduler.go]
  | cons t ts ih =>
    intro main sched
    by_cases h : main.compat t
    · simp only [GreedyScheduler.go, h, if_true]
      rw [ih _ (sched ++ [t]), ih _ ([] ++ [t])]
      simp
    · simp only [GreedyScheduler.go, h, if_false]
      exact ih main sched

theorem greedy_go_sublist (rest : List Workload.Transaction) :
    ∀ main, (GreedyScheduler.go main [] rest).Sublist rest := by
  induction rest with
  | nil => intro main; simp [GreedyScheduler.go]
  | cons t ts ih =>
    intro main
    by_cases h : main.compat t
    · simp only [GreedyScheduler.go, h, if_true]
      rw [greedy_go_acc]
      simpa using List.Sublist.cons₂ t (ih (main.mergeU t))
    · simp only [GreedyScheduler.go, h, if_false]
      exact (ih main).cons t

theorem greedy_go_eq_foldl (rest : List Workload.Transaction) :
    ∀ main sched, GreedyScheduler.go main sched rest =
      (rest.foldl
        (fun s txn => if s.1.compat txn then (s.1.mergeU txn, s.2 ++ [txn]) else s)
        (main, sched)).2 := by
  induction rest with
  | nil => intro main sched; rfl
  | cons t ts ih =>
    intro main sched
    by_cases h : main.compat t <;>
      simp only [GreedyScheduler.go, List.foldl_cons, h, if_true, if_false] <;>
      exact ih _ _

end Sched

/-- C7: on a non-empty input `T0 :: rest`, the greedy scheduler returns
exactly the list produced by the spec's fold (acc starts at `T0`, `chosen`
at `[T0]`; each later transaction is merged into `acc` and appended to
`chosen` iff it is compatible with `acc`); `T0` is always chosen, and the
chosen list is a subsequence of the input in input order. -/
theorem greedy_schedule_is_spec_fold (t : Workload.Transaction)
    (ts : List Workload.Transaction) :
    Sched.GreedyScheduler.schedule (t :: ts) = some (Sched.greedySpec (t :: ts)) ∧
    t ∈ Sched.greedySpec (t :: ts) ∧
    (Sched.greedySpec (t :: ts)).Sublist (t :: ts) := by
  have hfold : Sched.greedySpec (t :: ts) = Sched.GreedyScheduler.go t [t] ts := by
    rw [Sched.greedySpec, Sched.greedy_go_eq_foldl]
  have hacc : Sched.GreedyScheduler.go t [t] ts =
      t :: Sched.GreedyScheduler.go t [] ts := by
    rw [Sched.greedy_go_acc]; rfl
  refine ⟨?_, ?_, ?_⟩
  · rw [Sched.GreedyScheduler.schedule, hfold]
  · rw [hfold, hacc]; exact List.mem_cons_self t _
  · rw [hfold, hacc]
    exact List.Sublist.cons₂ t (Sched.greedy_go_sublist ts t)

namespace Sched

theorem tournLoop_isSome_aux :
    ∀ n (ts : List Workload.Transaction), ts.length = n →
      ((tournLoop ts).isSome = true ↔ ∃ k, n = 2 ^ k) := by
  intro n
  induction n using Nat.strong_induction_on with
  | _ n ih =>
    intro ts hlen
    rcases ts with _ | ⟨t1, _ | ⟨t2, rest⟩⟩
    · rw [tournLoop]
      simp only [Option.isSome_none, Bool.false_eq_true, false_iff]
      rintro ⟨k, hk⟩
      simp only [List.length_nil] at hlen
      have := Nat.two_pow_pos k
      omega
    · rw [tournLoop]
      simp only [Option.isSome_some, true_iff]
      exact ⟨0, by simpa using hlen.symm⟩
    · rw [tournLoop]
      by_cases h : (t1 :: t2 :: rest).length % 2 = 0
      · simp only [h, if_true]
        have hlt : (tournRound (t1 :: t2 :: rest)).length < n := by
          rw [tournRound_length]
          simp only [List.length_cons] at hlen ⊢
          omega
        rw [ih _ hlt (tournRound (t1 :: t2 :: rest)) rfl]
        have hr : (tournRound (t1 :: t2 :: rest)).length = n / 2 := by
          rw [tournRound_length]
          simp only [List.length_cons] at hlen h ⊢
          omega
        rw [hr]
        constructor
        · rintro ⟨k, hk⟩
          refine ⟨k + 1, ?_⟩
          have h2 : n = 2 * (n / 2) := by
            simp only [List.length_cons] at hlen h
            omega
          rw [h2, hk, pow_succ]
          ring
        · rintro ⟨k, hk⟩
          match k with
          | 0 =>
            simp only [pow_zero] at hk
            simp only [List.length_cons] at hlen
            omega
          | k + 1 =>
            refine ⟨k, ?_⟩
            rw [hk, pow_succ]
            omega
      · simp only [h, if_false]
        simp only [Option.isSome_none, Bool.false_eq_true, false_iff]
        rintro ⟨k, hk⟩
        match k with
        | 0 =>
          simp only [pow_zero] at hk
          simp only [List.length_cons] at hlen
          omega
        | k + 1 =>
          rw [← hlen] at hk
          apply h
          rw [hk, pow_succ]
          omega

end Sched

/-- C2 counterexample: on a three-element input (three mutually compatible
transactions, so padding — were there any — would succeed trivially) the
tournament scheduler does not pad to a power of two: the evenness assertion
fails and no subset is returned. -/
theorem tournament_three_txns_fails :
    Sched.TournamentScheduler.schedule
      [⟨{0}, ∅, ∅⟩, ⟨{1}, ∅, ∅⟩, ⟨{2}, ∅, ∅⟩] = none := by
  rw [Sched.TournamentScheduler.schedule, Sched.tournLoop]
  simp

/-- C2 amended: the tournament scheduler never pads: on any input list
whose length is not a power of two, the `len(txns) % 2 == 0` assertion
fails at the first odd-length level (or `txns[0]` raises on the empty
list) and no subset is returned. -/
theorem tournament_not_power_of_two_fails (ts : List Workload.Transaction)
    (h : ¬ ∃ k, ts.length = 2 ^ k) :
    Sched.TournamentScheduler.schedule ts = none := by
  have hloop : Sched.tournLoop ts = none := by
    cases hl : Sched.tournLoop ts with
    | none => rfl
    | some t =>
      exact absurd ((Sched.tournLoop_isSome_aux ts.length ts rfl).mp
        (by rw [hl]; rfl)) h
  rw [Sched.TournamentScheduler.schedule, hloop]
  rfl

/-- Witness for C2 (amended): a five-transaction input (5 is no power of
two) yields no schedule. -/
theorem tournament_not_power_of_two_fails_witness :
    Sched.TournamentScheduler.schedule
      [⟨{0}, ∅, ∅⟩, ⟨{1}, ∅, ∅⟩, ⟨{2}, ∅, ∅⟩, ⟨{3}, ∅, ∅⟩, ⟨{4}, ∅, ∅⟩] = none :=
  tournament_not_power_of_two_fails _
    (by
      rintro ⟨k, hk⟩
      simp only [List.length_cons, List.length_nil] at hk
      match k with
      | 0 => norm_num at hk
      | 1 => norm_num at hk
      | 2 => norm_num at hk
      | k + 3 =>
        rw [pow_succ, pow_succ, pow_succ] at hk
        have := Nat.two_pow_pos k
        omega)

/-- C6: at each level the tournament pairs adjacent survivors, promoting
the merge when compatible and the left sibling otherwise, and finally
returns the original inputs indexed by the survivor's ids: for four
transactions `A, B, C, D` (carrying ids 0..3) with `A` conflicting with
`B`, `C` conflicting with `D`, and `A` compatible with `C`, the returned
subset is `[A, C]`. -/
theorem tournament_left_wins (A B C D : Workload.Transaction)
    (hA : A.ids = {0}) (hB : B.ids = {1}) (hC : C.ids = {2}) (hD : D.ids = {3})
    (hAB : A.compat B = false) (hCD : C.compat D = false)
    (hAC : A.compat C = true) :
    Sched.TournamentScheduler.schedule [A, B, C, D] = some [A, C] := by
  have h1 : Sched.tournRound [A, B, C, D] = [A, C] := by
    simp [Sched.tournRound, hAB, hCD]
  have h2 : Sched.tournRound [A, C] = [A.mergeU C] := by
    simp [Sched.tournRound, hAC]
  have h3 : Sched.tournLoop [A, B, C, D] = some (A.mergeU C) := by
    rw [Sched.tournLoop]
    rw [if_pos (by simp), h1]
    rw [Sched.tournLoop]
    rw [if_pos (by simp), h2]
    rw [Sched.tournLoop]
  have hids : (A.mergeU C).ids = ({0, 2} : Finset ℕ) := by
    show A.ids ∪ C.ids = ({0, 2} : Finset ℕ)
    rw [hA, hC]
    decide
  have hsort : (({0, 2} : Finset ℕ).sort (· ≤ ·)) = [0, 2] := by
    have h02 : ({0, 2} : Finset ℕ) = insert 0 {2} := rfl
    rw [h02]
    have hi := Finset.sort_insert (r := (· ≤ ·)) (a := (0 : ℕ)) (s := {2})
      (by simp) (by simp)
    rw [hi, Finset.sort_singleton]
  rw [Sched.TournamentScheduler.schedule, h3]
  show Sched.TournamentScheduler.indexByIds [A, B, C, D]
      ((A.mergeU C).ids.sort (· ≤ ·)) = some [A, C]
  rw [hids, hsort]
  rfl

/-- Witness for C6: concrete transactions with a read-write conflict inside
each pair and disjoint footprints across the pairs. -/
theorem tournament_left_wins_witness :
    Sched.TournamentScheduler.schedule
      [⟨{0}, ∅, {10}⟩, ⟨{1}, {10}, ∅⟩, ⟨{2}, ∅, {11}⟩, ⟨{3}, {11}, ∅⟩] =
      some [⟨{0}, ∅, {10}⟩, ⟨{2}, ∅, {11}⟩] :=
  tournament_left_wins ⟨{0}, ∅, {10}⟩ ⟨{1}, {10}, ∅⟩ ⟨{2}, ∅, {11}⟩ ⟨{3}, {11}, ∅⟩
    rfl rfl rfl rfl (by decide) (by decide) (by decide)

namespace Bloom

/-- Setting a bit to true at an in-range index makes `getD` read true. -/
theorem getD_set_self (bs : List Bool) (i : ℕ) (h : i < bs.length) :
    (bs.set i true).getD i false = true := by
  simp [List.getD_eq_getElem?_getD, List.getElem?_set, h]

/-- Setting a bit to true never clears an already-set bit. -/
theorem getD_set_mono (bs : List Bool) (i j : ℕ)
    (h : bs.getD j false = true) : (bs.set i true).getD j false = true := by
  simp only [List.getD_eq_getElem?_getD, List.getElem?_set] at h ⊢
  by_cases hij : i = j
  · subst hij
    by_cases hin : i < bs.length
    · simp [hin]
    · rw [List.getElem?_eq_none (by omega)] at h
      simp at h
  · simp [hij, h]

theorem foldl_set_length (x : ℕ) :
    ∀ (fns : List (ℕ → ℕ)) (bs : List Bool),
      (fns.foldl (fun bs fn => bs.set (fn x) true) bs).length = bs.length := by
  intro fns
  induction fns with
  | nil => intro bs; rfl
  | cons fn fns ih =>
    intro bs
    simp only [List.foldl_cons]
    rw [ih]
    exact List.length_set bs (fn x) true

theorem foldl_set_mono (x : ℕ) :
    ∀ (fns : List (ℕ → ℕ)) (bs : List Bool) (j : ℕ), bs.getD j false = true →
      (fns.foldl (fun bs fn => bs.set (fn x) true) bs).getD j false = true := by
  intro fns
  induction fns with
  | nil => intro bs j h; exact h
  | cons fn fns ih =>
    intro bs j h
    exact ih _ j (getD_set_mono bs (fn x) j h)

theorem foldl_set_sets (x : ℕ) :
    ∀ (fns : List (ℕ → ℕ)) (bs : List Bool) (fn : ℕ → ℕ), fn ∈ fns →
      fn x < bs.length →
      (fns.foldl (fun bs fn => bs.set (fn x) true) bs).getD (fn x) false = true := by
  intro fns
  induction fns with
  | nil => intro bs fn h; exact absurd h (List.not_mem_nil fn)
  | cons g fns ih =>
    intro bs fn hmem hlt
    rcases List.mem_cons.mp hmem with heq | htail
    · subst heq
      exact foldl_set_mono x fns _ _ (getD_set_self bs (fn x) hlt)
    · exact ih _ fn htail (by rw [List.length_set]; exact hlt)

/-- `add` preserves the bit-array length. -/
theorem add_length (f : BloomFilter) (x : ℕ) :
    (f.add x).bits.length = f.bits.length :=
  foldl_set_length x f.hash_fns f.bits

/-- `add` leaves the hash family untouched. -/
theorem add_hash_fns (f : BloomFilter) (x : ℕ) :
    (f.add x).hash_fns = f.hash_fns := rfl

/-- `add` never clears a set bit. -/
theorem add_mono (f : BloomFilter) (x j : ℕ) (h : f.bits.getD j false = true) :
    (f.add x).bits.getD j false = true :=
  foldl_set_mono x f.hash_fns f.bits j h

/-- After `add x`, the bit at `fn x` is set for every family hash `fn`
hitting inside the array. -/
theorem add_sets (f : BloomFilter) (x : ℕ) (fn : ℕ → ℕ)
    (hmem : fn ∈ f.hash_fns) (hlt : fn x < f.bits.length) :
    (f.add x).bits.getD (fn x) false = true :=
  foldl_set_sets x f.hash_fns f.bits fn hmem hlt

theorem addElems_length (xs : List ℕ) :
    ∀ f : BloomFilter, (f.addElems xs).bits.length = f.bits.length := by
  induction xs with
  | nil => intro f; rfl
  | cons x xs ih =>
    intro f
    show ((f.add x).addElems xs).bits.length = f.bits.length
    rw [ih (f.add x), add_length]

theorem addElems_hash_fns (xs : List ℕ) :
    ∀ f : BloomFilter, (f.addElems xs).hash_fns = f.hash_fns := by
  induction xs with
  | nil => intro f; rfl
  | cons x xs ih =>
    intro f
    show ((f.add x).addElems xs).hash_fns = f.hash_fns
    rw [ih (f.add x), add_hash_fns]

theorem addElems_mono (xs : List ℕ) :
    ∀ (f : BloomFilter) (j : ℕ), f.bits.getD j false = true →
      (f.addElems xs).bits.getD j false = true := by
  induction xs with
  | nil => intro f j h; exact h
  | cons x xs ih =>
    intro f j h
    exact ih (f.add x) j (add_mono f x j h)

/-- After adding every element of `xs`, the bit `fn x` is set for each
`x ∈ xs` and each family hash `fn` hitting inside the array. -/
theorem addElems_sets (xs : List ℕ) :
    ∀ (f : BloomFilter) (x : ℕ) (fn : ℕ → ℕ), x ∈ xs → fn ∈ f.hash_fns →
      fn x < f.bits.length →
      (f.addElems xs).bits.getD (fn x) false = true := by
  induction xs with
  | nil => intro f x fn h; exact absurd h (List.not_mem_nil x)
  | cons y ys ih =>
    intro f x fn hmem hfn hlt
    rcases List.mem_cons.mp hmem with heq | htail
    · subst heq
      exact addElems_mono ys (f.add x) _ (add_sets f x fn hfn hlt)
    · exact ih (f.add y) x fn htail (by rw [add_hash_fns]; exact hfn)
        (by rw [add_length]; exact hlt)

/-- Broadcasting a list of insertions over a parallel filter inserts the
list into each part. -/
theorem pAddElems_parts (xs : List ℕ) :
    ∀ p : ParallelBloomFilter,
      (p.addElems xs).parts = p.parts.map (fun part => part.addElems xs) := by
  induction xs with
  | nil =>
    intro p
    show p.parts = _
    simp [BloomFilter.addElems]
  | cons x xs ih =>
    intro p
    show ((p.add x).addElems xs).parts = _
    rw [ih (p.add x)]
    show (p.parts.map (fun part => part.add x)).map (fun part => part.addElems xs) = _
    rw [List.map_map]
    rfl

theorem getD_zipWith (f : Bool → Bool → Bool) :
    ∀ (l1 l2 : List Bool) (i : ℕ), l1.length = l2.length → i < l1.length →
      (List.zipWith f l1 l2).getD i false = f (l1.getD i false) (l2.getD i false) := by
  intro l1
  induction l1 with
  | nil => intro l2 i _ hi; exact absurd hi (by simp)
  | cons a l1 ih =>
    intro l2 i hlen hi
    match l2 with
    | [] => exact absurd hlen (by simp)
    | b :: l2 =>
      match i with
      | 0 => rfl
      | i + 1 =>
        simp only [List.zipWith_cons_cons, List.getD_cons_succ]
        exact ih l2 i (by simpa using hlen) (by simpa using hi)

/-- A set bit forces `__bool__` to report non-empty. -/
theorem toBool_of_getD (f : BloomFilter) (i : ℕ)
    (h : f.bits.getD i false = true) : f.toBool = true := by
  rw [BloomFilter.toBool, List.any_eq_true]
  refine ⟨true, ?_, rfl⟩
  rw [List.getD_eq_getElem?_getD] at h
  match hi : f.bits[i]? with
  | none => rw [hi] at h; simp at h
  | some b =>
    rw [hi] at h
    simp only [Option.getD_some] at h
    subst h
    exact List.getElem?_mem hi

end Bloom

namespace Bloom

theorem compressed_parts_length (fam : List (ℕ × (ℕ → ℕ))) (xs : List ℕ) :
    ((freshParallel fam).addElems xs).parts.length = fam.length := by
  rw [pAddElems_parts]
  simp [freshParallel]

theorem compressed_part_eq (fam : List (ℕ × (ℕ → ℕ))) (xs : List ℕ) (j : ℕ)
    (hj : j < fam.length) :
    ((freshParallel fam).addElems xs).parts.get
        ⟨j, by rw [compressed_parts_length]; exact hj⟩ =
      (BloomFilter.mk (List.replicate (fam.get ⟨j, hj⟩).1 false)
        [(fam.get ⟨j, hj⟩).2]).addElems xs := by
  simp [pAddElems_parts, freshParallel, List.get_eq_getElem, List.getElem_map]

theorem compressed_part_bits_length (fam : List (ℕ × (ℕ → ℕ))) (xs : List ℕ)
    (j : ℕ) (hj : j < fam.length) :
    (((freshParallel fam).addElems xs).parts.get
        ⟨j, by rw [compressed_parts_length]; exact hj⟩).bits.length =
      (fam.get ⟨j, hj⟩).1 := by
  rw [compressed_part_eq fam xs j hj, addElems_length]
  simp

/-- For any inserted element `x`, part `j` of the compressed set has its
hashed bit set. -/
theorem compressed_part_bit (fam : List (ℕ × (ℕ → ℕ)))
    (hfam : ∀ p ∈ fam, ∀ y, p.2 y < p.1) (xs : List ℕ) (x : ℕ) (hx : x ∈ xs)
    (j : ℕ) (hj : j < fam.length) :
    (((freshParallel fam).addElems xs).parts.get
        ⟨j, by rw [compressed_parts_length]; exact hj⟩).bits.getD
      ((fam.get ⟨j, hj⟩).2 x) false = true := by
  rw [compressed_part_eq fam xs j hj]
  apply addElems_sets
  · exact hx
  · exact List.mem_singleton.mpr rfl
  · simpa using hfam (fam.get ⟨j, hj⟩) (List.get_mem fam j hj) x

end Bloom

/-- C1: signature soundness of compatibility.  For any parallel Bloom
family (each part's hash landing inside its bit array, as the modular
hashes of `make_parallel_bloom_filter_family` do), if exact
`compatible(A, B)` is false then `compatible` on the signature-compressed
transactions is also false: the compressed test can only err toward
"incompatible", never toward "compatible". -/
theorem signature_compat_sound (fam : List (ℕ × (ℕ → ℕ)))
    (hfam : ∀ p ∈ fam, ∀ y, p.2 y < p.1)
    (A B : Workload.Transaction) (hexact : A.compat B = false) :
    (Bloom.compressTransaction A fam).compat (Bloom.compressTransaction B fam) =
      false := by
  classical
  obtain ⟨x, hx⟩ : ((A.read_set ∩ B.write_set) ∪ (A.write_set ∩ B.read_set) ∪
      (A.write_set ∩ B.write_set)).Nonempty := by
    rw [Workload.Transaction.compat] at hexact
    simp only [decide_eq_false_iff_not] at hexact
    exact Finset.nonempty_iff_ne_empty.mpr hexact
  rw [Bloom.SigTransaction.compat]
  simp only [Bloom.compressTransaction, Bool.not_eq_false']
  set xr1 := A.read_set.sort (· ≤ ·) with hxr1
  set xw1 := A.write_set.sort (· ≤ ·) with hxw1
  set xr2 := B.read_set.sort (· ≤ ·) with hxr2
  set xw2 := B.write_set.sort (· ≤ ·) with hxw2
  set R1 := (Bloom.freshParallel fam).addElems xr1 with hR1
  set W1 := (Bloom.freshParallel fam).addElems xw1 with hW1
  set R2 := (Bloom.freshParallel fam).addElems xr2 with hR2
  set W2 := (Bloom.freshParallel fam).addElems xw2 with hW2
  rw [Bloom.ParallelBloomFilter.toBool, List.all_eq_true]
  intro part hpart
  rw [Bloom.ParallelBloomFilter.union, Bloom.ParallelBloomFilter.union,
    Bloom.ParallelBloomFilter.inter, Bloom.ParallelBloomFilter.inter,
    Bloom.ParallelBloomFilter.inter] at hpart
  obtain ⟨jf, hget⟩ := List.mem_iff_get.mp hpart
  have hlenR1 : R1.parts.length = fam.length := Bloom.compressed_parts_length fam xr1
  have hlenW1 : W1.parts.length = fam.length := Bloom.compressed_parts_length fam xw1
  have hlenR2 : R2.parts.length = fam.length := Bloom.compressed_parts_length fam xr2
  have hlenW2 : W2.parts.length = fam.length := Bloom.compressed_parts_length fam xw2
  have hj : jf.1 < fam.length := by
    have := jf.2
    simp only [List.length_zipWith, hlenR1, hlenW1, hlenR2, hlenW2] at this
    omega
  subst hget
  simp only [List.get_eq_getElem, List.getElem_zipWith]
  set m := (fam.get ⟨jf.1, hj⟩).1 with hm
  set hfn := (fam.get ⟨jf.1, hj⟩).2 with hfn_def
  have hbitR1 : ∀ hmem : x ∈ A.read_set,
      (R1.parts.get ⟨jf.1, by rw [hlenR1]; exact hj⟩).bits.getD (hfn x) false = true :=
    fun hmem => Bloom.compressed_part_bit fam hfam xr1 x
      (by rw [hxr1, Finset.mem_sort]; exact hmem) jf.1 hj
  have hbitW1 : ∀ hmem : x ∈ A.write_set,
      (W1.parts.get ⟨jf.1, by rw [hlenW1]; exact hj⟩).bits.getD (hfn x) false = true :=
    fun hmem => Bloom.compressed_part_bit fam hfam xw1 x
      (by rw [hxw1, Finset.mem_sort]; exact hmem) jf.1 hj
  have hbitR2 : ∀ hmem : x ∈ B.read_set,
      (R2.parts.get ⟨jf.1, by rw [hlenR2]; exact hj⟩).bits.getD (hfn x) false = true :=
    fun hmem => Bloom.compressed_part_bit fam hfam xr2 x
      (by rw [hxr2, Finset.mem_sort]; exact hmem) jf.1 hj
  have hbitW2 : ∀ hmem : x ∈ B.write_set,
      (W2.parts.get ⟨jf.1, by rw [hlenW2]; exact hj⟩).bits.getD (hfn x) false = true :=
    fun hmem => Bloom.compressed_part_bit fam hfam xw2 x
      (by rw [hxw2, Finset.mem_sort]; exact hmem) jf.1 hj
  have hblR1 : (R1.parts.get ⟨jf.1, by rw [hlenR1]; exact hj⟩).bits.length = m :=
    Bloom.compressed_part_bits_length fam xr1 jf.1 hj
  have hblW1 : (W1.parts.get ⟨jf.1, by rw [hlenW1]; exact hj⟩).bits.length = m :=
    Bloom.compressed_part_bits_length fam xw1 jf.1 hj
  have hblR2 : (R2.parts.get ⟨jf.1, by rw [hlenR2]; exact hj⟩).bits.length = m :=
    Bloom.compressed_part_bits_length fam xr2 jf.1 hj
  have hblW2 : (W2.parts.get ⟨jf.1, by rw [hlenW2]; exact hj⟩).bits.length = m :=
    Bloom.compressed_part_bits_length fam xw2 jf.1 hj
  have hfx : hfn x < m := by
    have := hfam (fam.get ⟨jf.1, hj⟩) (List.get_mem fam jf.1 hj) x
    simpa [hm, hfn_def] using this
  apply Bloom.toBool_of_getD _ (hfn x)
  rw [Bloom.BloomFilter.union, Bloom.BloomFilter.union, Bloom.BloomFilter.inter,
    Bloom.BloomFilter.inter, Bloom.BloomFilter.inter]
  simp only [List.get_eq_getElem] at hbitR1 hbitW1 hbitR2 hbitW2 hblR1 hblW1 hblR2 hblW2
  rw [Bloom.getD_zipWith or _ _ _ (by simp [List.length_zipWith, hblR1, hblW1, hblR2, hblW2])
    (by simp [List.length_zipWith, hblR1, hblW1, hblR2, hblW2]; omega)]
  rw [Bloom.getD_zipWith or _ _ _ (by simp [List.length_zipWith, hblR1, hblW1, hblR2, hblW2])
    (by simp [List.length_zipWith, hblR1, hblW1, hblR2, hblW2]; omega)]
  rw [Bloom.getD_zipWith and _ _ _ (by rw [hblR1, hblW2])
    (by rw [hblR1]; exact hfx)]
  rw [Bloom.getD_zipWith and _ _ _ (by rw [hblW1, hblR2])
    (by rw [hblW1]; exact hfx)]
  rw [Bloom.getD_zipWith and _ _ _ (by rw [hblW1, hblW2])
    (by rw [hblW1]; exact hfx)]
  rcases Finset.mem_union.mp hx with hx' | hww
  · rcases Finset.mem_union.mp hx' with hrw | hwr
    · obtain ⟨h1, h2⟩ := Finset.mem_inter.mp hrw
      rw [hbitR1 h1, hbitW2 h2]
      simp
    · obtain ⟨h1, h2⟩ := Finset.mem_inter.mp hwr
      rw [hbitW1 h1, hbitR2 h2]
      simp
  · obtain ⟨h1, h2⟩ := Finset.mem_inter.mp hww
    rw [hbitW1 h1, hbitW2 h2]
    simp

/-- Witness for C1: a write-write conflict on object 1, compressed with a
one-part family of four buckets hashing by remainder. -/
theorem signature_compat_sound_witness :
    (Workload.Transaction.compat ⟨{0}, ∅, {1}⟩ ⟨{1}, ∅, {1}⟩ = false) ∧
    ((Bloom.compressTransaction ⟨{0}, ∅, {1}⟩ [(4, fun y => y % 4)]).compat
        (Bloom.compressTransaction ⟨{1}, ∅, {1}⟩ [(4, fun y => y % 4)]) = false) :=
  ⟨by decide,
   signature_compat_sound [(4, fun y => y % 4)]
     (by
       intro p hp y
       rcases List.mem_singleton.mp hp with rfl
       exact Nat.mod_lt y (by decide))
     ⟨{0}, ∅, {1}⟩ ⟨{1}, ∅, {1}⟩ (by decide)⟩

namespace Analyze

theorem parseCsvFrom_spec (lines : List PyStr) :
    ∀ (n : ℕ) (m : List (ℕ × Txn)), 1 ≤ n → parseCsvFrom n lines = .ok m →
      ∀ (i : ℕ) (t : Txn), ((i, t) ∈ m ↔
        ∃ (j : ℕ) (hj : j < lines.length), i = n - 1 + j ∧
          pyStrip (lines.get ⟨j, hj⟩) ≠ [] ∧
          parseCsvLine (n + j) (pyStrip (lines.get ⟨j, hj⟩)) = .ok t) := by
  induction lines with
  | nil =>
    intro n m _hn hok i t
    simp only [parseCsvFrom] at hok
    injection hok with hm
    subst hm
    simp
  | cons l ls ih =>
    intro n m hn hok i t
    simp only [parseCsvFrom] at hok
    by_cases hempty : pyStrip l = []
    · rw [if_pos hempty] at hok
      rw [ih (n + 1) m (by omega) hok i t]
      constructor
      · rintro ⟨j, hj, hi, hne, hparse⟩
        refine ⟨j + 1, by simpa using Nat.succ_lt_succ hj, by omega, by simpa using hne, ?_⟩
        have harith : n + (j + 1) = n + 1 + j := by omega
        rw [harith]
        simpa using hparse
      · rintro ⟨j, hj, hi, hne, hparse⟩
        match j with
        | 0 => exact absurd hempty (by simpa using hne)
        | j + 1 =>
          refine ⟨j, by simpa using hj, by omega, by simpa using hne, ?_⟩
          have harith : n + (j + 1) = n + 1 + j := by omega
          rw [harith] at hparse
          simpa using hparse
    · rw [if_neg hempty] at hok
      cases hline : parseCsvLine n (pyStrip l) with
      | error e =>
        rw [hline] at hok
        cases hok
      | ok t0 =>
        rw [hline] at hok
        cases hrest : parseCsvFrom (n + 1) ls with
        | error e =>
          rw [hrest] at hok
          cases hok
        | ok rest =>
          rw [hrest] at hok
          injection hok with hm
          subst hm
          constructor
          · intro hmem
            rcases List.mem_cons.mp hmem with heq | hmemr
            · rw [Prod.mk.injEq] at heq
              obtain ⟨hi, ht⟩ := heq
              refine ⟨0, by simp, by omega, by simpa using hempty, ?_⟩
              show parseCsvLine (n + 0) (pyStrip l) = .ok t
              rw [Nat.add_zero, hline, ht]
            · obtain ⟨j, hj, hi, hne, hp⟩ :=
                (ih (n + 1) rest (by omega) hrest i t).mp hmemr
              refine ⟨j + 1, by simpa using Nat.succ_lt_succ hj, by omega,
                by simpa using hne, ?_⟩
              have harith : n + (j + 1) = n + 1 + j := by omega
              rw [harith]
              simpa using hp
          · rintro ⟨j, hj, hi, hne, hp⟩
            match j with
            | 0 =>
              apply List.mem_cons.mpr
              left
              rw [Prod.mk.injEq]
              refine ⟨by omega, ?_⟩
              have hp0 : parseCsvLine n (pyStrip l) = .ok t := by
                have harith : n + 0 = n := by omega
                rw [harith] at hp
                simpa using hp
              rw [hline] at hp0
              injection hp0 with ht
              exact ht.symm
            | j + 1 =>
              apply List.mem_cons.mpr
              right
              apply (ih (n + 1) rest (by omega) hrest i t).mpr
              refine ⟨j, by simpa using hj, by omega, by simpa using hne, ?_⟩
              have harith : n + (j + 1) = n + 1 + j := by omega
              rw [harith] at hp
              simpa using hp

end Analyze

/-- C4 counterexample: with an empty first line followed by the line
"1,5,0", the parser stores the transaction of the sole non-empty line under
id 1 (its 0-based physical line number), not under id 0 (its 0-based index
among non-empty lines as the claim states): the resulting map has no key
0 at all. -/
theorem csv_id_counterexample :
    (Analyze.parseTransactionsCsv [[], ['1', ',', '5', ',', '0']] =
      .ok [(1, { reads := [5], writes := [] })]) ∧
    ∀ t : Analyze.Txn,
      ((0 : ℕ), t) ∉ [((1 : ℕ), ({ reads := [5], writes := [] } : Analyze.Txn))] := by
  refine ⟨rfl, ?_⟩
  intro t hmem
  rcases List.mem_cons.mp hmem with heq | habs
  · rw [Prod.mk.injEq] at heq
    exact absurd heq.1 (by omega)
  · exact absurd habs (List.not_mem_nil _)

/-- C4 amended: the parser skips lines that strip to empty, and the id of a
parsed transaction is its 0-based physical line index (stripped-empty lines
are skipped but still counted): on success, `(i, t)` is in the map iff line
`i` of the input is non-empty after stripping and parses to `t` (the
1-based line number `i + 1` only feeds diagnostics). -/
theorem csv_ids_are_line_numbers (lines : List Analyze.PyStr)
    (m : List (ℕ × Analyze.Txn)) (hok : Analyze.parseTransactionsCsv lines = .ok m)
    (i : ℕ) (t : Analyze.Txn) :
    (i, t) ∈ m ↔
      ∃ hi : i < lines.length,
        Analyze.pyStrip (lines.get ⟨i, hi⟩) ≠ [] ∧
        Analyze.parseCsvLine (i + 1) (Analyze.pyStrip (lines.get ⟨i, hi⟩)) = .ok t := by
  rw [Analyze.parseCsvFrom_spec lines 1 m (le_refl 1) hok i t]
  constructor
  · rintro ⟨j, hj, hi, hne, hp⟩
    have hij : i = j := by omega
    subst hij
    refine ⟨hj, hne, ?_⟩
    have harith : 1 + i = i + 1 := by omega
    rw [harith] at hp
    exact hp
  · rintro ⟨hi, hne, hp⟩
    refine ⟨i, hi, by omega, hne, ?_⟩
    have harith : 1 + i = i + 1 := by omega
    rw [harith]
    exact hp

/-- Witness for C4 (amended): on the two-line input of the counterexample,
the amended law places the transaction of physical line 1 at key 1. -/
theorem csv_ids_are_line_numbers_witness :
    ((1 : ℕ), ({ reads := [5], writes := [] } : Analyze.Txn)) ∈
      [((1 : ℕ), ({ reads := [5], writes := [] } : Analyze.Txn))] :=
  (csv_ids_are_line_numbers [[], ['1', ',', '5', ',', '0']]
      [(1, { reads := [5], writes := [] })] rfl 1 { reads := [5], writes := [] }).mpr
    ⟨by decide, by decide, by rfl⟩

namespace Analyze

theorem conflict_eq_true_iff (a b : Txn) :
    conflict a b = true ↔
      (∃ w ∈ a.writes, w ∈ b.reads ∨ w ∈ b.writes) ∨ ∃ r ∈ a.reads, r ∈ b.writes := by
  simp [conflict, List.any_eq_true, List.elem_iff]

/-- The source's `conflict` relation is symmetric: each disjunct of one
direction maps to a disjunct of the other. -/
theorem conflict_symm (a b : Txn) : conflict a b = conflict b a := by
  have key : ∀ x y : Txn, conflict x y = true → conflict y x = true := by
    intro x y h
    rw [conflict_eq_true_iff] at h ⊢
    rcases h with ⟨w, hw, hwr | hww⟩ | ⟨r, hr, hrw⟩
    · exact Or.inr ⟨w, hwr, hw⟩
    · exact Or.inl ⟨w, hww, Or.inr hw⟩
    · exact Or.inl ⟨r, hrw, Or.inl hr⟩
  cases hab : conflict a b <;> cases hba : conflict b a
  · rfl
  · exact absurd (key b a hba) (by rw [hab]; simp)
  · exact absurd (key a b hab) (by rw [hba]; simp)
  · rfl

/-- Pairwise absence of conflicts among the active transactions. -/
def ActiveOk (s : CheckState) : Prop :=
  s.active_txns.Pairwise
    (fun p q => conflict p.2.1 q.2.1 = false ∧ conflict q.2.1 p.2.1 = false)

theorem step_preserves_ActiveOk (np : ℕ) (m : List (ℕ × Txn)) (s : CheckState)
    (e : LogEntry) (s' : CheckState) (hs : step np m s e = .ok s')
    (hinv : ActiveOk s) : ActiveOk s' := by
  rcases e with ⟨k, time, tid, pid⟩
  cases k
  case submit =>
    simp only [step] at hs
    split at hs
    · cases hs
    · injection hs with hs'
      subst hs'
      exact hinv
  case scheduled =>
    simp only [step] at hs
    split at hs
    · cases hs
    · split at hs
      · cases hs
      · split at hs
        · cases hs
        · split at hs
          · cases hs
          · split at hs
            · cases hs
            · rename_i tx _ hnoconf
              injection hs with hs'
              subst hs'
              rw [ActiveOk] at hinv ⊢
              simp only
              rw [List.pairwise_append]
              refine ⟨hinv, List.pairwise_singleton _ _, ?_⟩
              intro a ha b hb
              rw [List.mem_singleton] at hb
              subst hb
              have hfalse : conflict tx a.2.1 = false := by
                have := (List.any_eq_false).mp (Bool.not_eq_true _ ▸ hnoconf) a ha
                simpa using this
              exact ⟨by rw [conflict_symm]; exact hfalse, hfalse⟩
  case done =>
    simp only [step] at hs
    split at hs
    · cases hs
    · split at hs
      · cases hs
      · split at hs
        · cases hs
        · split at hs
          · cases hs
          · injection hs with hs'
            subst hs'
            rw [ActiveOk] at hinv ⊢
            simp only
            exact List.Pairwise.sublist (List.filter_sublist _) hinv

theorem runEvents_preserves_ActiveOk :
    ∀ (evs : List LogEntry) (np : ℕ) (m : List (ℕ × Txn)) (s s' : CheckState),
      runEvents np m s evs = .ok s' → ActiveOk s → ActiveOk s' := by
  intro evs
  induction evs with
  | nil =>
    intro np m s s' hrun hinv
    simp only [runEvents] at hrun
    injection hrun with h
    subst h
    exact hinv
  | cons e es ih =>
    intro np m s s' hrun hinv
    simp only [runEvents] at hrun
    cases hstep : step np m s e with
    | error err => rw [hstep] at hrun; cases hrun
    | ok s1 =>
      rw [hstep] at hrun
      exact ih np m s1 s' hrun (step_preserves_ActiveOk np m s e s1 hstep hinv)

end Analyze

/-- C5: throughout a run of the consistency checker, no two conflicting
transactions (a write of one meeting the reads or writes of the other) are
ever simultaneously in the `active_txns` map — any successfully processed
event prefix leaves a pairwise conflict-free active map — and a `scheduled`
event that passes the lifecycle checks but conflicts with an active
transaction makes the checker exit with
"Error: Conflict detected when scheduling txn i". -/
theorem analyzer_no_conflicting_active :
    (∀ (np : ℕ) (m : List (ℕ × Analyze.Txn)) (evs : List Analyze.LogEntry)
        (s : Analyze.CheckState),
        Analyze.runEvents np m Analyze.initState evs = .ok s →
        ∀ p q, p ∈ s.active_txns → q ∈ s.active_txns → p ≠ q →
          Analyze.conflict p.2.1 q.2.1 = false) ∧
    (∀ (np : ℕ) (m : List (ℕ × Analyze.Txn)) (s : Analyze.CheckState)
        (e : Analyze.LogEntry) (tx : Analyze.Txn),
        e.kind = Analyze.EventKind.scheduled →
        e.txn_id ∈ s.submitted → e.txn_id ∉ s.scheduled → e.puppet_id < np →
        m.lookup e.txn_id = some tx →
        (∃ a ∈ s.active_txns, Analyze.conflict tx a.2.1 = true) →
        Analyze.step np m s e = .error (.exit
          ("Error: Conflict detected when scheduling txn " ++ toString e.txn_id))) := by
  constructor
  · intro np m evs s hrun p q hp hq hpq
    have hok : Analyze.ActiveOk s :=
      Analyze.runEvents_preserves_ActiveOk evs np m Analyze.initState s hrun
        (List.Pairwise.nil)
    have hsymm : Symmetric (fun p q : ℕ × Analyze.Txn × ℕ =>
        Analyze.conflict p.2.1 q.2.1 = false ∧ Analyze.conflict q.2.1 p.2.1 = false) :=
      fun a b hab => ⟨hab.2, hab.1⟩
    exact (List.Pairwise.forall hsymm hok hp hq hpq).1
  · intro np m s e tx hk hsub hsched hpup hlook hconf
    rcases e with ⟨k, time, tid, pid⟩
    simp only at hk hsub hsched hpup hlook hconf
    subst hk
    simp only [Analyze.step]
    rw [if_neg (not_not_intro hsub), if_neg hsched, if_neg (by omega), hlook]
    exact if_pos (List.any_eq_true.mpr hconf)

/-- Witness for C5: scheduling transaction 1 (a write of object 42) while
transaction 0 (also a write of object 42) is still active exits with the
conflict diagnostic. -/
theorem analyzer_no_conflicting_active_witness :
    Analyze.step 1 [(1, { reads := [], writes := [42] })]
      { submitted := {1}, scheduled := {0}, done := ∅,
        active_txns := [(0, { reads := [], writes := [42] }, 0)] }
      ⟨Analyze.EventKind.scheduled, 0, 1, 0⟩ =
      .error (.exit ("Error: Conflict detected when scheduling txn " ++ toString 1)) :=
  analyzer_no_conflicting_active.2 1 [(1, { reads := [], writes := [42] })]
    { submitted := {1}, scheduled := {0}, done := ∅,
      active_txns := [(0, { reads := [], writes := [42] }, 0)] }
    ⟨Analyze.EventKind.scheduled, 0, 1, 0⟩ { reads := [], writes := [42] }
    rfl (by decide) (by decide) (by decide) rfl
    ⟨(0, { reads := [], writes := [42] }, 0), List.mem_singleton.mpr rfl, by decide⟩

namespace Analyze

/-- The only step outcome carrying a `KeyError` is the `txn_map` lookup of
a `scheduled` event whose id is absent from the parsed CSV. -/
theorem step_keyError (np : ℕ) (m : List (ℕ × Txn)) (s : CheckState)
    (e : LogEntry) (i : ℕ) (h : step np m s e = .error (.keyError i)) :
    e.kind = .scheduled ∧ m.lookup e.txn_id = none ∧ i = e.txn_id := by
  rcases e with ⟨k, time, tid, pid⟩
  cases k <;> simp only [step] at h
  all_goals repeat' split at h
  all_goals simp_all
  all_goals assumption

theorem runEvents_no_keyError :
    ∀ (evs : List LogEntry) (np : ℕ) (m : List (ℕ × Txn)) (s : CheckState) (i : ℕ),
      (∀ e ∈ evs, e.kind = .scheduled → (m.lookup e.txn_id).isSome = true) →
      runEvents np m s evs ≠ .error (.keyError i) := by
  intro evs
  induction evs with
  | nil =>
    intro np m s i _hall
    simp [runEvents]
  | cons e es ih =>
    intro np m s i hall
    simp only [runEvents]
    cases hstep : step np m s e with
    | error err =>
      intro hcontra
      injection hcontra with herr
      subst herr
      obtain ⟨hk, hlook, _hi⟩ := step_keyError np m s e i hstep
      have := hall e (List.mem_cons_self e es) hk
      rw [hlook] at this
      simp at this
    | ok s1 =>
      exact ih np m s1 i (fun e2 he2 => hall e2 (List.mem_cons_of_mem e he2))

end Analyze

/-- C10: a `scheduled` event whose txn id was submitted in the log but is
absent from the transactions CSV crashes the checker with an uncaught
`KeyError` at the `txn_map[e.txn_id]` lookup (not a one-line `sys.exit`
diagnostic); and whenever every `scheduled` event names an id present in
the CSV, no run of the checker can produce that `KeyError`. -/
theorem scheduled_unknown_id_keyerror :
    (Analyze.checkConsistency 1 [(0, { reads := [], writes := [] })]
        [⟨Analyze.EventKind.submit, 0, 7, 0⟩, ⟨Analyze.EventKind.scheduled, 1, 7, 0⟩] =
      .error (.keyError 7)) ∧
    (∀ (np : ℕ) (m : List (ℕ × Analyze.Txn)) (evs : List Analyze.LogEntry),
      (∀ e ∈ evs, e.kind = Analyze.EventKind.scheduled →
        (m.lookup e.txn_id).isSome = true) →
      ∀ i, Analyze.checkConsistency np m evs ≠ .error (.keyError i)) := by
  constructor
  · rfl
  · intro np m evs hall i
    rw [Analyze.checkConsistency]
    cases hrun : Analyze.runEvents np m Analyze.initState evs with
    | error err =>
      simp only [hrun]
      intro hcontra
      injection hcontra with herr
      subst herr
      exact Analyze.runEvents_no_keyError evs np m Analyze.initState i hall hrun
    | ok s =>
      simp only [hrun]
      split
      · simp
      · split
        · simp
        · simp

/-- Witness for C10: on the happy-path log (submit then schedule of txn 0,
present in the CSV), the checker never raises the lookup `KeyError`. -/
theorem scheduled_unknown_id_keyerror_witness :
    Analyze.checkConsistency 1 [(0, { reads := [], writes := [] })]
      [⟨Analyze.EventKind.submit, 0, 0, 0⟩, ⟨Analyze.EventKind.scheduled, 1, 0, 0⟩] ≠
      .error (.keyError 0) :=
  scheduled_unknown_id_keyerror.2 1 [(0, { reads := [], writes := [] })]
    [⟨Analyze.EventKind.submit, 0, 0, 0⟩, ⟨Analyze.EventKind.scheduled, 1, 0, 0⟩]
    (by
      intro e he hk
      rcases List.mem_cons.mp he with rfl | he2
      · simp at hk
      · rcases List.mem_cons.mp he2 with rfl | he3
        · rfl
        · exact absurd he3 (List.not_mem_nil _))
    0
